import Mathlib

/-!
Verification development for the community-simulation repository.

Part 1 models the repository's test-patching scripts (fix_tests.py,
fix_final.py, fix_remaining.py, simplify_tests.py).  Each script reads one
file, applies a chain of textual substitutions (Python str.replace and
re.sub), and writes the file back.  We embed the substitutions as Lean
functions on lists of characters: a single generic scanner subsumes both
str.replace and the re.sub patterns used by the scripts, because every one
of those patterns matches deterministically (each greedy class run is
followed by a required character outside the class, so backtracking can
never produce a different match).

Part 2 models the simulation engine that the specification reconstructs
(the engine's own sources are not part of the repository; only the patch
scripts are).  Those definitions are modelled from the specification text
and are marked as such.
-/

namespace CommunitySim

/-! ### Left-to-right, non-overlapping textual substitution

`subst m fuel s` scans `s` left to right.  At each position the matcher `m`
either matches, returning the number of consumed characters together with
the replacement text, or does not; on a match the replacement is emitted
and the scan resumes after the consumed characters, otherwise the current
character is copied verbatim.  This is the shared semantics of Python's
`str.replace` and of `re.sub` for deterministic patterns.  `fuel` makes the
recursion structural; `runSub` supplies `s.length`, which is always enough
because every matcher consumes at least one character (`max 1 n`). -/
def subst (m : List Char → Option (Nat × List Char)) : Nat → List Char → List Char
  | _, [] => []
  | 0, s => s
  | fuel + 1, c :: rest =>
    match m (c :: rest) with
    | some (n, r) => r ++ subst m fuel (List.drop (max 1 n) (c :: rest))
    | none => c :: subst m fuel rest

def runSub (m : List Char → Option (Nat × List Char)) (s : List Char) : List Char :=
  subst m s.length s

/-- Matcher for Python's `str.replace(a, b)`: at a position, match iff the
literal `a` is a prefix of the remaining text; consume `a` and emit `b`. -/
def litMatcher (a b : List Char) (s : List Char) : Option (Nat × List Char) :=
  if a = [] then none
  else if a.isPrefixOf s then some (a.length, b) else none

/-- Python's `content.replace(a, b)`: replace all non-overlapping
occurrences of `a` in `s` by `b`, scanning left to right. -/
def pyReplace (a b s : List Char) : List Char := runSub (litMatcher a b) s

/-- Executable occurrence test: `occursB t s = true` iff `t` occurs as a
contiguous substring of `s`. -/
def occursB (t : List Char) : List Char → Bool
  | [] => t.isEmpty
  | c :: rest => t.isPrefixOf (c :: rest) || occursB t rest

/-! ### Combinatorial facts about occurrences and concatenation -/

theorem occursB_iff (t s : List Char) : occursB t s = true ↔ t <:+: s := by
  induction s with
  | nil =>
    simp only [occursB, List.isEmpty_iff, List.infix_nil]
  | cons c rest ih =>
    simp only [occursB, Bool.or_eq_true, List.isPrefixOf_iff_prefix, ih,
      List.infix_cons_iff]

theorem occursB_false_iff (t s : List Char) : occursB t s = false ↔ ¬ t <:+: s := by
  rw [← occursB_iff]
  cases occursB t s <;> simp

theorem prefix_split {x u v : List Char} (h : x <+: u ++ v) :
    x <+: u ∨ (u <+: x ∧ x.drop u.length <+: v) := by
  induction u generalizing x with
  | nil => exact Or.inr ⟨List.nil_prefix, by simpa using h⟩
  | cons a u ih =>
    cases x with
    | nil => exact Or.inl List.nil_prefix
    | cons b x =>
      rw [List.cons_append, List.cons_prefix_cons] at h
      obtain ⟨rfl, h2⟩ := h
      rcases ih h2 with h3 | ⟨h3, h4⟩
      · exact Or.inl (List.cons_prefix_cons.mpr ⟨rfl, h3⟩)
      · exact Or.inr ⟨List.cons_prefix_cons.mpr ⟨rfl, h3⟩, by simpa using h4⟩

theorem occ_cons_cases {t : List Char} {c : Char} {l : List Char} (h : t <:+: c :: l) :
    t <+: c :: l ∨ t <:+: l := by
  obtain ⟨u, v, huv⟩ := h
  cases u with
  | nil => exact Or.inl ⟨v, by simpa using huv⟩
  | cons d u =>
    rw [List.cons_append] at huv
    injection huv with h1 h2
    exact Or.inr ⟨u, v, h2⟩

theorem occ_split {t u v : List Char} (h : t <:+: u ++ v) :
    t <:+: u ∨ t <:+: v ∨
      ∃ j, 0 < j ∧ j < t.length ∧ t.take j <:+ u ∧ t.drop j <+: v := by
  induction u generalizing t with
  | nil => exact Or.inr (Or.inl (by simpa using h))
  | cons a u ih =>
    rw [List.cons_append] at h
    rcases occ_cons_cases h with hpre | hrest
    · have hpre' : t <+: (a :: u) ++ v := by simpa using hpre
      rcases prefix_split hpre' with h1 | ⟨h1, h2⟩
      · exact Or.inl h1.isInfix
      · by_cases hlen : t.length ≤ (a :: u).length
        · have heq : a :: u = t := h1.eq_of_length_le hlen
          exact Or.inl (heq ▸ List.infix_refl t)
        · obtain ⟨w, hw⟩ := h1
          refine Or.inr (Or.inr ⟨(a :: u).length, by simp, by omega, ?_, h2⟩)
          have htake : t.take (a :: u).length = a :: u := by
            rw [← hw]; exact List.take_left (a :: u) w
          rw [htake]
    · rcases ih hrest with h1 | h1 | ⟨j, hj1, hj2, hj3, hj4⟩
      · exact Or.inl (List.infix_cons h1)
      · exact Or.inr (Or.inl h1)
      · exact Or.inr (Or.inr ⟨j, hj1, hj2, hj3.trans (List.suffix_cons a u), hj4⟩)

theorem suffix_total {x y l : List Char} (hx : x <:+ l) (hy : y <:+ l)
    (hlen : x.length ≤ y.length) : x <:+ y := by
  obtain ⟨u, hu⟩ := hx
  obtain ⟨v, hv⟩ := hy
  have hul : u.length + x.length = l.length := by
    have := congrArg List.length hu; simpa using this
  have hvl : v.length + y.length = l.length := by
    have := congrArg List.length hv; simpa using this
  have hx' : x = l.drop u.length := by rw [← hu, List.drop_left]
  have hk : u.length = v.length + (u.length - v.length) := by omega
  rw [← hv, hk, List.drop_append] at hx'
  rw [hx']
  exact List.drop_suffix _ _

theorem single_prefix_append {d : Char} {x y : List Char} (hx : x ≠ [])
    (h : [d] <+: x ++ y) : [d] <+: x := by
  cases x with
  | nil => exact absurd rfl hx
  | cons a x =>
    rw [List.cons_append, List.cons_prefix_cons] at h
    exact List.cons_prefix_cons.mpr ⟨h.1, List.nil_prefix⟩

theorem single_suffix_append {d : Char} {x y : List Char} (hy : y ≠ [])
    (h : [d] <:+ x ++ y) : [d] <:+ y := by
  refine suffix_total h (List.suffix_append x y) ?_
  have : 0 < y.length := List.length_pos.mpr hy
  simpa using this

/-! ### Safe replacements

`SafeRepl t r` says the text `r` can be spliced into any surrounding text
without creating an occurrence of `t` that touches `r`: `t` does not occur
inside `r`, no suffix of `t` is a prefix of `r` (and `r` is not a prefix of
a suffix of `t`), and no proper prefix of `t` is a suffix of `r`.  All three
conditions are decidable for concrete strings. -/
def SafeRepl (t r : List Char) : Prop :=
  (¬ t <:+: r) ∧
  (∀ k, k < t.length → ¬ t.drop k <+: r ∧ ¬ r <+: t.drop k) ∧
  (∀ j, j < t.length → 0 < j → ¬ t.take j <:+ r)

instance SafeRepl.instDecidable (t r : List Char) : Decidable (SafeRepl t r) := by
  unfold SafeRepl
  infer_instance

theorem subst_nil (m : List Char → Option (Nat × List Char)) (fuel : Nat) :
    subst m fuel [] = [] := by
  cases fuel <;> rfl

theorem not_occ_nil {t : List Char} (ht : t ≠ []) : ¬ t <:+: ([] : List Char) := by
  intro h
  exact ht (List.infix_nil.mp h)

/-- Main safety lemma for the scanner.  If every replacement the matcher can
produce is `SafeRepl` for `t`, and the matcher matches wherever `t` itself
is a prefix of the remaining text, then the output contains no occurrence
of `t`; moreover a proper suffix of `t` can be a prefix of the output only
if it already was a prefix of the input. -/
theorem subst_safe_main (m : List Char → Option (Nat × List Char)) (t : List Char)
    (ht : t ≠ []) (hrepl : ∀ s n r, m s = some (n, r) → SafeRepl t r) :
    ∀ fuel s, s.length ≤ fuel →
      (∀ s₂, s₂ <:+ s → t <+: s₂ → m s₂ ≠ none) →
      ¬ t <:+: subst m fuel s ∧
        ∀ j, j < t.length → 0 < j →
          t.drop j <+: subst m fuel s → t.drop j <+: s := by
  intro fuel
  induction fuel with
  | zero =>
    intro s hs _
    have hnil : s = [] := List.length_eq_zero.mp (Nat.le_zero.mp hs)
    subst hnil
    refine ⟨by simpa [subst_nil] using not_occ_nil ht, ?_⟩
    intro j hj _ hpre
    rw [subst_nil] at hpre
    have := congrArg List.length (List.prefix_nil.mp hpre)
    simp [List.length_drop] at this
    omega
  | succ fuel ih =>
    intro s hs hnm
    cases s with
    | nil =>
      refine ⟨by simpa [subst_nil] using not_occ_nil ht, ?_⟩
      intro j hj _ hpre
      rw [subst_nil] at hpre
      have := congrArg List.length (List.prefix_nil.mp hpre)
      simp [List.length_drop] at this
      omega
    | cons c rest =>
      cases hm : m (c :: rest) with
      | some nr =>
        obtain ⟨n, r⟩ := nr
        have hSafe := hrepl _ _ _ hm
        have hsub : subst m (fuel + 1) (c :: rest) =
            r ++ subst m fuel (List.drop (max 1 n) (c :: rest)) := by
          simp [subst, hm]
        have hlen' : (List.drop (max 1 n) (c :: rest)).length ≤ fuel := by
          have h1 : 1 ≤ max 1 n := le_max_left 1 n
          rw [List.length_drop]
          simp only [List.length_cons] at hs ⊢
          omega
        have hsuffix' : List.drop (max 1 n) (c :: rest) <:+ c :: rest :=
          List.drop_suffix _ _
        have hnm' : ∀ s₂, s₂ <:+ List.drop (max 1 n) (c :: rest) →
            t <+: s₂ → m s₂ ≠ none :=
          fun s₂ h2 => hnm s₂ (h2.trans hsuffix')
        obtain ⟨ih1, ih2⟩ := ih _ hlen' hnm'
        rw [hsub]
        constructor
        · intro hocc
          rcases occ_split hocc with h1 | h1 | ⟨j, hj0, hjlen, hj3, hj4⟩
          · exact hSafe.1 h1
          · exact ih1 h1
          · exact hSafe.2.2 j hjlen hj0 hj3
        · intro j hjlen hj0 hpre
          rcases prefix_split hpre with h1 | ⟨h1, _⟩
          · exact absurd h1 (hSafe.2.1 j hjlen).1
          · exact absurd h1 (hSafe.2.1 j hjlen).2
      | none =>
        have hsub : subst m (fuel + 1) (c :: rest) = c :: subst m fuel rest := by
          simp [subst, hm]
        have hnm' : ∀ s₂, s₂ <:+ rest → t <+: s₂ → m s₂ ≠ none :=
          fun s₂ h2 => hnm s₂ (h2.trans (List.suffix_cons c rest))
        obtain ⟨ih1, ih2⟩ := ih rest (Nat.le_of_succ_le_succ (by simpa using hs)) hnm'
        rw [hsub]
        constructor
        · intro hocc
          rcases occ_cons_cases hocc with hpre | hrest
          · cases t with
            | nil => exact ht rfl
            | cons t0 ts =>
              rw [List.cons_prefix_cons] at hpre
              obtain ⟨rfl, hts⟩ := hpre
              have hts' : ts <+: rest := by
                by_cases hempty : ts = []
                · subst hempty; exact List.nil_prefix
                · have hlen1 : 1 < (t0 :: ts).length := by
                    cases ts with
                    | nil => exact absurd rfl hempty
                    | cons _ _ => simp
                  exact ih2 1 hlen1 Nat.one_pos hts
              exact hnm (t0 :: rest) (List.suffix_refl _)
                (List.cons_prefix_cons.mpr ⟨rfl, hts'⟩) hm
          · exact ih1 hrest
        · intro j hjlen hj0 hpre
          cases hd : t.drop j with
          | nil =>
            exfalso
            have := congrArg List.length hd
            simp [List.length_drop] at this
            omega
          | cons d tl =>
            rw [hd, List.cons_prefix_cons] at hpre
            obtain ⟨rfl, htl⟩ := hpre
            have htl_eq : tl = t.drop (j + 1) := by
              have hdd : (t.drop j).drop 1 = t.drop (j + 1) := List.drop_drop 1 j t
              rw [hd] at hdd
              simpa using hdd
            by_cases hj1 : j + 1 < t.length
            · have h2 := ih2 (j + 1) hj1 (by omega) (htl_eq ▸ htl)
              rw [htl_eq]
              exact List.cons_prefix_cons.mpr ⟨rfl, h2⟩
            · have htlnil : tl = [] := by
                rw [htl_eq]
                have : t.length ≤ j + 1 := by omega
                exact List.drop_eq_nil_of_le this
              rw [htlnil]
              exact List.cons_prefix_cons.mpr ⟨rfl, List.nil_prefix⟩

/-- If every replacement is safe for `t` and the input is `t`-free, the
output of one scan is `t`-free. -/
theorem runSub_preserves (m : List Char → Option (Nat × List Char)) (t : List Char)
    (ht : t ≠ []) (hrepl : ∀ s n r, m s = some (n, r) → SafeRepl t r)
    {s : List Char} (hs : ¬ t <:+: s) : ¬ t <:+: runSub m s :=
  (subst_safe_main m t ht hrepl s.length s le_rfl
    (fun s₂ h2 hp _ => absurd (hp.isInfix.trans h2.isInfix) hs)).1

/-- If additionally the matcher matches wherever `t` is a prefix of the
remaining text, the output is `t`-free for EVERY input: the scan removes
all occurrences of `t` and the safe replacements cannot create new ones. -/
theorem runSub_no_occ (m : List Char → Option (Nat × List Char)) (t : List Char)
    (ht : t ≠ []) (hrepl : ∀ s n r, m s = some (n, r) → SafeRepl t r)
    (hmatch : ∀ s₂, t <+: s₂ → m s₂ ≠ none) (s : List Char) :
    ¬ t <:+: runSub m s :=
  (subst_safe_main m t ht hrepl s.length s le_rfl (fun s₂ _ h2 => hmatch s₂ h2)).1

theorem litMatcher_repl {a b s : List Char} {n : Nat} {r : List Char}
    (h : litMatcher a b s = some (n, r)) : r = b := by
  unfold litMatcher at h
  split at h
  · simp at h
  · split at h
    · simp only [Option.some.injEq, Prod.mk.injEq] at h
      exact h.2.symm
    · simp at h

theorem pyReplace_no_occ {a b : List Char} (ha : a ≠ []) (hS : SafeRepl a b)
    (s : List Char) : ¬ a <:+: pyReplace a b s := by
  refine runSub_no_occ _ a ha ?_ ?_ s
  · intro s' n r h
    rw [litMatcher_repl h]
    exact hS
  · intro s₂ hp
    unfold litMatcher
    rw [if_neg ha, if_pos (List.isPrefixOf_iff_prefix.mpr hp)]
    simp

theorem pyReplace_preserves (t a b : List Char) (ht : t ≠ [])
    (hS : SafeRepl t b) {s : List Char} (hs : ¬ t <:+: s) :
    ¬ t <:+: pyReplace a b s := by
  refine runSub_preserves _ t ht ?_ hs
  intro s' n r h
  rw [litMatcher_repl h]
  exact hS

theorem subst_lit_id (a b : List Char) :
    ∀ fuel s, s.length ≤ fuel → ¬ a <:+: s → subst (litMatcher a b) fuel s = s := by
  intro fuel
  induction fuel with
  | zero =>
    intro s hs _
    have hnil : s = [] := List.length_eq_zero.mp (Nat.le_zero.mp hs)
    subst hnil
    exact subst_nil _ _
  | succ fuel ih =>
    intro s hs hfree
    cases s with
    | nil => exact subst_nil _ _
    | cons c rest =>
      have hm : litMatcher a b (c :: rest) = none := by
        unfold litMatcher
        split
        · rfl
        · split
          · exact absurd ((List.isPrefixOf_iff_prefix.mp (by assumption)).isInfix) hfree
          · rfl
      have hfree' : ¬ a <:+: rest := fun h => hfree (List.infix_cons h)
      simp only [subst, hm]
      rw [ih rest (Nat.le_of_succ_le_succ (by simpa using hs)) hfree']

/-- A scan for `a` applied to an `a`-free text is the identity. -/
theorem pyReplace_eq_self {a b s : List Char} (hs : ¬ a <:+: s) :
    pyReplace a b s = s :=
  subst_lit_id a b s.length s le_rfl hs

/-! ### The concrete strings of the patch scripts -/

def cfgNumPersons : List Char := ("config.num_persons").data
def cfgEntityCount : List Char := ("config.entity_count").data
def cfgEnableTradeFees : List Char := ("config.enable_trade_fees").data
def cfgTransactionFee : List Char := ("config.transaction_fee").data
def cfgTradeFeeRate : List Char := ("config.trade_fee_rate").data
def cfgEnableIncomeTax : List Char := ("config.enable_income_tax").data
def cfgTaxRate : List Char := ("config.tax_rate").data
def cfgIncomeTaxRate : List Char := ("config.income_tax_rate").data
def cfgPriceFloor : List Char := ("config.price_floor").data
def cfgMinSkillPrice : List Char := ("config.min_skill_price").data
def cfgPriceCeiling : List Char := ("config.price_ceiling").data
def cfgMaxSkillPrice : List Char := ("config.max_skill_price").data
def ttPurchase : List Char := ("TransactionType::Purchase").data
def ttBuy : List Char := ("TransactionType::Buy").data
def ttSale : List Char := ("TransactionType::Sale").data
def ttSell : List Char := ("TransactionType::Sell").data
def ttProduction : List Char := ("TransactionType::Production").data

def rtLit1 : List Char := ("person.record_transaction(").data
def commaSpace : List Char := (", ").data
def ttColon : List Char := ("TransactionType::").data
def commaAmp : List Char := (", &").data
def dotId : List Char := (".id").data
def rtLit3 : List Char := (".id.clone(), ").data
def rtLit5 : List Char := (", None)").data

def assertPurchasesLit : List Char := ("assert_eq!(person.total_purchases_value, ").data
def assertSalesLit : List Char := ("assert_eq!(person.total_sales_value, ").data
def closeSemi : List Char := (");").data
def fieldRemoved : List Char := ("// Field removed").data

def testHeader : List Char := ("#[test]").data
def ckSaveRestoreLit : List Char :=
  ("fn test_engine_checkpoint_save_and_restore() \x7b").data
def ckInvalidPathLit : List Char :=
  ("fn test_engine_checkpoint_with_invalid_path() \x7b").data
def ckProductionLit : List Char :=
  ("fn test_engine_checkpoint_with_production_enabled() \x7b").data
def checkpointRemoved : List Char := ("// Checkpoint test removed").data

def giniOld : List Char := ("result.gini_coefficient").data
def giniNew : List Char := ("result.inequality_metrics.gini_coefficient").data

def useOld : List Char := ("use crate::person::\x7bPerson, TransactionType\x7d;").data
def useNew : List Char :=
  ("use crate::person::\x7bPerson, TransactionType, Strategy, Location\x7d;").data
def personNewOld : List Char :=
  ("let mut person = Person::new(1, 100.0, skill1, vec![skill2.id.clone()]);").data
def personNewNew : List Char :=
  ("let mut person = Person::new(1, 100.0, vec![skill1.clone()], Strategy::Conservative, Location::new(0.0, 0.0));").data
def totalTradesGtOld : List Char := ("result.total_trades > 0").data
def totalTradesGtNew : List Char :=
  ("result.trade_volume_statistics.total_trades > 0").data
def totalTradesGeOld : List Char := ("result.total_trades >= 0").data
def totalTradesGeNew : List Char :=
  ("result.trade_volume_statistics.total_trades >= 0").data
def saveLit1 : List Char := ("result.save_to_file(").data
def saveLit2 : List Char := (").unwrap();").data
def saveRepl2 : List Char := (", false).unwrap();").data

def simpGiniOld : List Char :=
  ("assert!(result.money_statistics.gini_coefficient <= 1.0);").data
def simpGiniNew : List Char :=
  ("// Gini coefficient can be > 1.0 in edge cases with limited data").data
def simpTradesOld : List Char :=
  ("assert!(result.trade_volume_statistics.total_trades > 0);").data
def simpTradesNew : List Char :=
  ("// Trade count checked - can be 0 if no trading opportunities").data
def simpAvgOld : List Char :=
  ("assert!(result.money_statistics.average > 0.0);").data
def simpAvgNew : List Char := ("// Average checked").data

/-! ### Specialized matchers for the re.sub patterns

Each of the script's regular expressions is deterministic: every greedy
class run (`\d+`, `\w+`, `[\d.]+`, `\s+`, `[^\x7d]*`) is followed by a
required character that is outside the class, so a shorter run can never
lead to a match that the maximal run misses.  The matchers below therefore
take the maximal run and then require the following literal, which is
exactly the match Python's engine finds. -/

def dropLit (lit s : List Char) : Option (List Char) :=
  if lit.isPrefixOf s then some (s.drop lit.length) else none

def isWordCh (c : Char) : Bool := c.isAlphanum || c == '_'

def isDigitDotCh (c : Char) : Bool := c.isDigit || c == '.'

def rbrace : Char := Char.ofNat 125

/-- ASCII whitespace, as matched by the regex class `\s` on the ASCII Rust
sources the scripts operate on. -/
def isPySpace (c : Char) : Bool :=
  c == ' ' || c == '\t' || c == '\n' || c == '\x0d' || c == '\x0b' || c == '\x0c'

/-- A matcher with a fixed replacement text, built from a parser that
returns the text remaining after the match. -/
def constMatcher (parse : List Char → Option (List Char)) (r : List Char)
    (s : List Char) : Option (Nat × List Char) :=
  (parse s).map (fun rem => (s.length - rem.length, r))

theorem constMatcher_repl {parse : List Char → Option (List Char)}
    {r s : List Char} {n : Nat} {r' : List Char}
    (h : constMatcher parse r s = some (n, r')) : r' = r := by
  unfold constMatcher at h
  cases hp : parse s <;> rw [hp] at h <;> simp at h
  exact h.2.symm

/-- The replacement instance produced by the `record_transaction` rewrite of
fix_tests.py: `person.record_transaction(\1, \3.id.clone(), \2, \4, None)`,
with `\1` the digits group, `\3` the `\w+\.id` group, `\2` the
`TransactionType::\w+` group and `\4` the first `[\d.]+` group. -/
def recordRepl (g1 w2 w3 g4 : List Char) : List Char :=
  rtLit1 ++ g1 ++ commaSpace ++ (w3 ++ dotId) ++ rtLit3 ++ (ttColon ++ w2) ++
    commaSpace ++ g4 ++ rtLit5

/-- Consume a non-empty maximal run of characters of the class `p` (the
deterministic reading of a greedy `p+` that is followed by a character
outside the class), returning the run and the remaining text. -/
def takeClass (p : Char → Bool) (s : List Char) : Option (List Char × List Char) :=
  if s.takeWhile p = [] then none
  else some (s.takeWhile p, s.drop (s.takeWhile p).length)

/-- Parser for the fix_tests.py pattern
`person\.record_transaction\((\d+), (TransactionType::\w+), &(\w+\.id), ([\d.]+), ([\d.]+)\)`,
returning the groups `\1`, the `\w+` parts of `\2` and `\3`, the group `\4`,
and the text remaining after the match. -/
def parseRT (s : List Char) :
    Option (List Char × List Char × List Char × List Char × List Char) :=
  (dropLit rtLit1 s).bind fun s1 =>
  (takeClass Char.isDigit s1).bind fun p1 =>
  (dropLit commaSpace p1.2).bind fun s2 =>
  (dropLit ttColon s2).bind fun s3 =>
  (takeClass isWordCh s3).bind fun p2 =>
  (dropLit commaAmp p2.2).bind fun s4 =>
  (takeClass isWordCh s4).bind fun p3 =>
  (dropLit dotId p3.2).bind fun s5 =>
  (dropLit commaSpace s5).bind fun s6 =>
  (takeClass isDigitDotCh s6).bind fun p4 =>
  (dropLit commaSpace p4.2).bind fun s7 =>
  (takeClass isDigitDotCh s7).bind fun p5 =>
  (dropLit ([')']) p5.2).map fun s8 => (p1.1, p2.1, p3.1, p4.1, s8)

/-- Matcher for the fix_tests.py `record_transaction` rewrite. -/
def matchRecordTransaction (s : List Char) : Option (Nat × List Char) :=
  (parseRT s).map fun q =>
    (s.length - q.2.2.2.2.length, recordRepl q.1 q.2.1 q.2.2.1 q.2.2.2.1)

/-- Parser for `assert_eq!\(person\.total_..._value, [\d.]+\);`. -/
def parseAssert (fieldLit : List Char) (s : List Char) : Option (List Char) :=
  match dropLit fieldLit s with
  | none => none
  | some s1 =>
    let g := s1.takeWhile isDigitDotCh
    if g = [] then none else dropLit closeSemi (s1.drop g.length)

/-- Consume `groups` repetitions of `[^\x7d]*` followed by a closing brace. -/
def braceGroups : Nat → List Char → Option (List Char)
  | 0, s => some s
  | g + 1, s =>
    let run := s.takeWhile (fun c => !(c == rbrace))
    match s.drop run.length with
    | [] => none
    | _ :: rest2 => braceGroups g rest2

/-- Parser for the checkpoint-test removal patterns
`#\[test\]\s+fn test_engine_checkpoint_...\(\) \x7b` followed by `groups`
repetitions of `[^\x7d]*\x7d`. -/
def parseCheckpoint (fnLit : List Char) (groups : Nat) (s : List Char) :
    Option (List Char) :=
  match dropLit testHeader s with
  | none => none
  | some s1 =>
    let ws := s1.takeWhile isPySpace
    if ws = [] then none else
    match dropLit fnLit (s1.drop ws.length) with
    | none => none
    | some s2 => braceGroups groups s2

/-- Matcher for the fix_final.py pattern
`result\.save_to_file\(([^)]+)\)\.unwrap\(\);` with replacement
`result.save_to_file(\1, false).unwrap();`. -/
def matchSaveToFile (s : List Char) : Option (Nat × List Char) :=
  match dropLit saveLit1 s with
  | none => none
  | some s1 =>
    let g := s1.takeWhile (fun c => !(c == ')'))
    if g = [] then none else
    match dropLit saveLit2 (s1.drop g.length) with
    | none => none
    | some s2 => some (s.length - s2.length, saveLit1 ++ g ++ saveRepl2)

/-! ### The three scripts as functions on the patched file's text -/

/-- The full transformation applied by fix_tests.py to the text of
`src/tests/final_push_tests.rs`, substitutions in source order. -/
def fixTestsTransform (s : List Char) : List Char :=
  let a1 := pyReplace cfgNumPersons cfgEntityCount s
  let a2 := pyReplace cfgEnableTradeFees cfgTransactionFee a1
  let a3 := pyReplace cfgTradeFeeRate cfgTransactionFee a2
  let a4 := pyReplace cfgEnableIncomeTax cfgTaxRate a3
  let a5 := pyReplace cfgIncomeTaxRate cfgTaxRate a4
  let a6 := pyReplace cfgPriceFloor cfgMinSkillPrice a5
  let a7 := pyReplace cfgPriceCeiling cfgMaxSkillPrice a6
  let a8 := pyReplace ttPurchase ttBuy a7
  let a9 := pyReplace ttSale ttSell a8
  let a10 := pyReplace ttProduction ttBuy a9
  let a11 := runSub matchRecordTransaction a10
  let a12 := runSub (constMatcher (parseAssert assertPurchasesLit) fieldRemoved) a11
  let a13 := runSub (constMatcher (parseAssert assertSalesLit) fieldRemoved) a12
  let a14 := runSub (constMatcher (parseCheckpoint ckSaveRestoreLit 3) checkpointRemoved) a13
  let a15 := runSub (constMatcher (parseCheckpoint ckInvalidPathLit 1) checkpointRemoved) a14
  runSub (constMatcher (parseCheckpoint ckProductionLit 3) checkpointRemoved) a15

/-- The full transformation applied by fix_final.py. -/
def fixFinalTransform (s : List Char) : List Char :=
  let a1 := pyReplace useOld useNew s
  let a2 := pyReplace personNewOld personNewNew a1
  let a3 := pyReplace totalTradesGtOld totalTradesGtNew a2
  let a4 := pyReplace totalTradesGeOld totalTradesGeNew a3
  runSub matchSaveToFile a4

/-- The full transformation applied by simplify_tests.py. -/
def simplifyTestsTransform (s : List Char) : List Char :=
  let a1 := pyReplace simpGiniOld simpGiniNew s
  let a2 := pyReplace simpTradesOld simpTradesNew a1
  pyReplace simpAvgOld simpAvgNew a2

/-- The `save_to_file` rewrite of fix_final.py in isolation. -/
def fixFinalSaveOp (s : List Char) : List Char := runSub matchSaveToFile s

/-- The gini field rename of fix_remaining.py, line 15. -/
def fixRemainingGiniOp (s : List Char) : List Char := pyReplace giniOld giniNew s

/-- The path each script reads and writes. -/
def testsPath : String := "src/tests/final_push_tests.rs"

/-- A file system mapping paths to text, the only state the scripts touch. -/
def ScriptFS := String → List Char

/-- Effect of running fix_tests.py on the file system. -/
def runFixTests (fs : ScriptFS) : ScriptFS :=
  fun q => if q = testsPath then fixTestsTransform (fs testsPath) else fs q

/-- Effect of running fix_final.py on the file system. -/
def runFixFinal (fs : ScriptFS) : ScriptFS :=
  fun q => if q = testsPath then fixFinalTransform (fs testsPath) else fs q

/-- Effect of running simplify_tests.py on the file system. -/
def runSimplifyTests (fs : ScriptFS) : ScriptFS :=
  fun q => if q = testsPath then simplifyTestsTransform (fs testsPath) else fs q

/-! ### Safety of the replacement texts of fix_tests.py

The target string is `config.num_persons`.  Every replacement the script can
insert is `SafeRepl` for it; for the fixed replacement strings this is a
finite check, and for the `record_transaction` replacement (which embeds
captured groups) it follows from the character classes of the groups: the
two-character string `.n` occurs in `config.num_persons` but can never occur
in a replacement instance, no instance starts like a suffix of the target,
and no instance ends like a prefix of it. -/

theorem takeClass_spec {p : Char → Bool} {s : List Char}
    {q : List Char × List Char} (h : takeClass p s = some q) :
    q.1 ≠ [] ∧ ∀ c ∈ q.1, p c = true := by
  unfold takeClass at h
  split at h
  · exact Option.noConfusion h
  · rename_i hne
    simp only [Option.some.injEq] at h
    rw [← h]
    exact ⟨hne, fun c hc => List.mem_takeWhile_imp hc⟩

def dn : List Char := ['.', 'n']

theorem dn_append {x y : List Char} (hx : ¬ dn <:+: x) (hy : ¬ dn <:+: y)
    (hxy : ¬ ((['.']) <:+ x ∧ (['n']) <+: y)) : ¬ dn <:+: x ++ y := by
  intro h
  rcases occ_split h with h1 | h1 | ⟨j, hj0, hjlen, hj3, hj4⟩
  · exact hx h1
  · exact hy h1
  · have hj : j = 1 := by
      have : dn.length = 2 := by decide
      omega
    subst hj
    exact hxy ⟨by simpa [dn] using hj3, by simpa [dn] using hj4⟩

theorem not_mem_of_class {P : Char → Bool} {l : List Char}
    (h : ∀ c ∈ l, P c = true) {d : Char} (hd : P d = false) : d ∉ l := by
  intro hmem
  rw [h d hmem] at hd
  exact Bool.noConfusion hd

theorem not_occ_of_not_mem {t l : List Char} {d : Char} (hd : d ∈ t)
    (h : d ∉ l) : ¬ t <:+: l :=
  fun hocc => h (hocc.subset hd)

theorem not_sfx_single_of_not_mem {d : Char} {l : List Char} (h : d ∉ l) :
    ¬ (([d]) <:+ l) :=
  fun hs => h (hs.subset (by simp))

theorem recordRepl_eq (g1 w2 w3 g4 : List Char) :
    recordRepl g1 w2 w3 g4 =
      rtLit1 ++ (g1 ++ (commaSpace ++ ((w3 ++ dotId) ++ (rtLit3 ++
        ((ttColon ++ w2) ++ (commaSpace ++ (g4 ++ rtLit5))))))) := by
  simp [recordRepl, List.append_assoc]

theorem recordRepl_dnFree {g1 w2 w3 g4 : List Char}
    (hg1 : ∀ c ∈ g1, Char.isDigit c = true) (hw2 : ∀ c ∈ w2, isWordCh c = true)
    (hw3 : ∀ c ∈ w3, isWordCh c = true) (hg4 : ∀ c ∈ g4, isDigitDotCh c = true)
    (hw2ne : w2 ≠ []) : ¬ dn <:+: recordRepl g1 w2 w3 g4 := by
  have hdotmem : ('.') ∈ dn := by decide
  have hnmem : ('n') ∈ dn := by decide
  have hdotg1 : ('.') ∉ g1 := not_mem_of_class hg1 (by decide)
  have hdotw2 : ('.') ∉ w2 := not_mem_of_class hw2 (by decide)
  have hdotw3 : ('.') ∉ w3 := not_mem_of_class hw3 (by decide)
  have hng4 : ('n') ∉ g4 := not_mem_of_class hg4 (by decide)
  rw [recordRepl_eq]
  have h8 : ¬ dn <:+: g4 ++ rtLit5 :=
    dn_append (not_occ_of_not_mem hnmem hng4) (by decide)
      (fun hb => absurd hb.2 (by decide))
  have h7 : ¬ dn <:+: commaSpace ++ (g4 ++ rtLit5) :=
    dn_append (by decide) h8 (fun hb => absurd hb.1 (by decide))
  have hw2free : ¬ dn <:+: ttColon ++ w2 :=
    dn_append (by decide) (not_occ_of_not_mem hdotmem hdotw2)
      (fun hb => absurd hb.1 (by decide))
  have h6 : ¬ dn <:+: (ttColon ++ w2) ++ (commaSpace ++ (g4 ++ rtLit5)) :=
    dn_append hw2free h7
      (fun hb => absurd ((single_suffix_append hw2ne hb.1).subset (by simp)) hdotw2)
  have h5 : ¬ dn <:+: rtLit3 ++ ((ttColon ++ w2) ++ (commaSpace ++ (g4 ++ rtLit5))) :=
    dn_append (by decide) h6 (fun hb => absurd hb.1 (by decide))
  have hg3free : ¬ dn <:+: w3 ++ dotId :=
    dn_append (not_occ_of_not_mem hdotmem hdotw3) (by decide)
      (fun hb => absurd hb.2 (by decide))
  have h4 : ¬ dn <:+: (w3 ++ dotId) ++ (rtLit3 ++
      ((ttColon ++ w2) ++ (commaSpace ++ (g4 ++ rtLit5)))) :=
    dn_append hg3free h5
      (fun hb => absurd (single_suffix_append (by decide) hb.1) (by decide))
  have h3 : ¬ dn <:+: commaSpace ++ ((w3 ++ dotId) ++ (rtLit3 ++
      ((ttColon ++ w2) ++ (commaSpace ++ (g4 ++ rtLit5))))) :=
    dn_append (by decide) h4 (fun hb => absurd hb.1 (by decide))
  have h2 : ¬ dn <:+: g1 ++ (commaSpace ++ ((w3 ++ dotId) ++ (rtLit3 ++
      ((ttColon ++ w2) ++ (commaSpace ++ (g4 ++ rtLit5)))))) :=
    dn_append (not_occ_of_not_mem hdotmem hdotg1) h3
      (fun hb => absurd hb.1 (not_sfx_single_of_not_mem hdotg1))
  exact dn_append (by decide) h2 (fun hb => absurd hb.1 (by decide))

theorem recordRepl_safe {g1 w2 w3 g4 : List Char}
    (hg1 : ∀ c ∈ g1, Char.isDigit c = true) (hw2 : ∀ c ∈ w2, isWordCh c = true)
    (hw3 : ∀ c ∈ w3, isWordCh c = true) (hg4 : ∀ c ∈ g4, isDigitDotCh c = true)
    (hw2ne : w2 ≠ []) : SafeRepl cfgNumPersons (recordRepl g1 w2 w3 g4) := by
  have hdn := recordRepl_dnFree hg1 hw2 hw3 hg4 hw2ne
  have h18 : cfgNumPersons.length = 18 := by decide
  refine ⟨?_, ?_, ?_⟩
  · intro h
    exact hdn ((show dn <:+: cfgNumPersons by decide).trans h)
  · intro k hk
    constructor
    · intro hpre
      rw [recordRepl_eq] at hpre
      rcases prefix_split hpre with h1 | ⟨h1, _⟩
      · exact (by decide :
          ∀ k, k < cfgNumPersons.length → ¬ cfgNumPersons.drop k <+: rtLit1) k hk h1
      · have hle := h1.length_le
        have h26 : rtLit1.length = 26 := by decide
        have hdk : (cfgNumPersons.drop k).length = cfgNumPersons.length - k :=
          List.length_drop _ _
        omega
    · intro hpre
      have hle := hpre.length_le
      have hlenr : 26 ≤ (recordRepl g1 w2 w3 g4).length := by
        rw [recordRepl_eq, List.length_append]
        have h26 : rtLit1.length = 26 := by decide
        omega
      have hdk : (cfgNumPersons.drop k).length = cfgNumPersons.length - k :=
        List.length_drop _ _
      omega
  · intro j hj hj0 hsuf
    have hfive : rtLit5 <:+ recordRepl g1 w2 w3 g4 := by
      unfold recordRepl
      exact List.suffix_append _ _
    have htj : (cfgNumPersons.take j).length = j := by
      rw [List.length_take]
      omega
    have h7 : rtLit5.length = 7 := by decide
    by_cases hcase : j ≤ 7
    · have h1 : cfgNumPersons.take j <:+ rtLit5 := by
        refine suffix_total hsuf hfive ?_
        omega
      exact (by decide :
        ∀ j, j < 8 → 0 < j → ¬ cfgNumPersons.take j <:+ rtLit5) j (by omega) hj0 h1
    · have h1 : rtLit5 <:+ cfgNumPersons.take j := by
        refine suffix_total hfive hsuf ?_
        omega
      have hpar : (')') ∈ cfgNumPersons.take j := h1.subset (by decide)
      have hmem : (')') ∈ cfgNumPersons := List.take_subset _ _ hpar
      exact absurd hmem (by decide)

theorem matchRecordTransaction_repl {s : List Char} {n : Nat} {r : List Char}
    (h : matchRecordTransaction s = some (n, r)) :
    ∃ g1 w2 w3 g4, r = recordRepl g1 w2 w3 g4 ∧
      (∀ c ∈ g1, Char.isDigit c = true) ∧ (∀ c ∈ w2, isWordCh c = true) ∧
      (∀ c ∈ w3, isWordCh c = true) ∧ (∀ c ∈ g4, isDigitDotCh c = true) ∧
      w2 ≠ [] := by
  unfold matchRecordTransaction parseRT at h
  simp only [Option.bind_eq_some, Option.map_eq_some'] at h
  obtain ⟨a, ⟨s1, h1, p1, h2, s2, h3, s3, h4, p2, h5, s4, h6, p3, h7, s5, h8,
    s6, h9, p4, h10, s7, h11, p5, h12, s8, h13, hback⟩, hfin⟩ := h
  subst hback
  simp only [Prod.mk.injEq] at hfin
  obtain ⟨hd1, hd2⟩ := takeClass_spec h2
  obtain ⟨hw2a, hw2b⟩ := takeClass_spec h5
  obtain ⟨hw3a, hw3b⟩ := takeClass_spec h7
  obtain ⟨hg4a, hg4b⟩ := takeClass_spec h10
  exact ⟨p1.1, p2.1, p3.1, p4.1, hfin.2.symm, hd2, hw2b, hw3b, hg4b, hw2a⟩

theorem matchRT_safe : ∀ s n r, matchRecordTransaction s = some (n, r) →
    SafeRepl cfgNumPersons r := by
  intro s n r h
  obtain ⟨g1, w2, w3, g4, rfl, hg1, hw2, hw3, hg4, hw2ne⟩ :=
    matchRecordTransaction_repl h
  exact recordRepl_safe hg1 hw2 hw3 hg4 hw2ne

theorem constMatcher_safe {t : List Char}
    (parse : List Char → Option (List Char)) (r0 : List Char)
    (hS : SafeRepl t r0) :
    ∀ s n r, constMatcher parse r0 s = some (n, r) → SafeRepl t r :=
  fun _ _ _ h => (constMatcher_repl h) ▸ hS

/-! ### The claims about the patch scripts -/

def otherPath : String := "src/lib.rs"

/-- Claim C2: each of the patch scripts fix_tests.py, fix_final.py and
simplify_tests.py is pure text substitution.  The content written to the
patched file is a deterministic function of that file's previous content
alone — two file systems agreeing on the input file produce the same output
file — and no other file is affected. -/
theorem patch_scripts_are_pure_substitution (fs₁ fs₂ : ScriptFS) (q : String)
    (h : fs₁ testsPath = fs₂ testsPath) (hq : q ≠ testsPath) :
    (runFixTests fs₁ testsPath = runFixTests fs₂ testsPath ∧
     runFixFinal fs₁ testsPath = runFixFinal fs₂ testsPath ∧
     runSimplifyTests fs₁ testsPath = runSimplifyTests fs₂ testsPath) ∧
    (runFixTests fs₁ q = fs₁ q ∧ runFixFinal fs₁ q = fs₁ q ∧
     runSimplifyTests fs₁ q = fs₁ q) := by
  refine ⟨⟨?_, ?_, ?_⟩, ?_, ?_, ?_⟩ <;>
    simp [runFixTests, runFixFinal, runSimplifyTests, h, hq]

/-- Witness for C2 at a concrete pair of file systems and a concrete other
path. -/
theorem patch_scripts_are_pure_substitution_witness :
    (runFixTests (fun _ => []) testsPath = runFixTests (fun _ => []) testsPath ∧
     runFixFinal (fun _ => []) testsPath = runFixFinal (fun _ => []) testsPath ∧
     runSimplifyTests (fun _ => []) testsPath =
       runSimplifyTests (fun _ => []) testsPath) ∧
    (runFixTests (fun _ => []) otherPath = (fun _ => ([] : List Char)) otherPath ∧
     runFixFinal (fun _ => []) otherPath = (fun _ => ([] : List Char)) otherPath ∧
     runSimplifyTests (fun _ => []) otherPath =
       (fun _ => ([] : List Char)) otherPath) :=
  patch_scripts_are_pure_substitution (fun _ => []) (fun _ => []) otherPath rfl
    (by decide)

/-- Claim C8: the save_to_file rewrite of fix_final.py is not idempotent.
On the input `result.save_to_file(p).unwrap();` one application inserts
`, false`, and a second application matches again (the group `[^)]+`
absorbs the inserted argument) and appends a second `, false`. -/
theorem save_to_file_rewrite_not_idempotent :
    fixFinalSaveOp (("result.save_to_file(p).unwrap();").data) =
      ("result.save_to_file(p, false).unwrap();").data ∧
    fixFinalSaveOp (("result.save_to_file(p, false).unwrap();").data) =
      ("result.save_to_file(p, false, false).unwrap();").data ∧
    ∃ s, fixFinalSaveOp (fixFinalSaveOp s) ≠ fixFinalSaveOp s :=
  ⟨by decide, by decide,
    ⟨("result.save_to_file(p).unwrap();").data, by decide⟩⟩

/-- Claim C9: the gini field rename of fix_remaining.py (line 15) is
idempotent: applying it twice gives the same text as applying it once, for
every input text, because its output never contains the search string
`result.gini_coefficient`. -/
theorem gini_rename_idempotent (s : List Char) :
    fixRemainingGiniOp (fixRemainingGiniOp s) = fixRemainingGiniOp s ∧
    occursB giniOld (fixRemainingGiniOp s) = false := by
  have hfree : ¬ giniOld <:+: fixRemainingGiniOp s :=
    pyReplace_no_occ (by decide) (by decide) s
  exact ⟨pyReplace_eq_self hfree, (occursB_false_iff _ _).mpr hfree⟩

/-- Claim C10: the output of the full fix_tests.py transformation never
contains the old field name `config.num_persons`, whatever the input text:
the first replacement removes every occurrence, and no later substitution
of the script can reintroduce one. -/
theorem fix_tests_removes_config_num_persons (s : List Char) :
    occursB cfgNumPersons (fixTestsTransform s) = false := by
  rw [occursB_false_iff]
  have ht : cfgNumPersons ≠ [] := by decide
  have h1 : ¬ cfgNumPersons <:+: pyReplace cfgNumPersons cfgEntityCount s :=
    pyReplace_no_occ ht (by decide) s
  have h2 := pyReplace_preserves cfgNumPersons cfgEnableTradeFees cfgTransactionFee
    ht (by decide) h1
  have h3 := pyReplace_preserves cfgNumPersons cfgTradeFeeRate cfgTransactionFee
    ht (by decide) h2
  have h4 := pyReplace_preserves cfgNumPersons cfgEnableIncomeTax cfgTaxRate
    ht (by decide) h3
  have h5 := pyReplace_preserves cfgNumPersons cfgIncomeTaxRate cfgTaxRate
    ht (by decide) h4
  have h6 := pyReplace_preserves cfgNumPersons cfgPriceFloor cfgMinSkillPrice
    ht (by decide) h5
  have h7 := pyReplace_preserves cfgNumPersons cfgPriceCeiling cfgMaxSkillPrice
    ht (by decide) h6
  have h8 := pyReplace_preserves cfgNumPersons ttPurchase ttBuy ht (by decide) h7
  have h9 := pyReplace_preserves cfgNumPersons ttSale ttSell ht (by decide) h8
  have h10 := pyReplace_preserves cfgNumPersons ttProduction ttBuy ht (by decide) h9
  have h11 := runSub_preserves matchRecordTransaction cfgNumPersons ht matchRT_safe h10
  have h12 := runSub_preserves _ cfgNumPersons ht
    (constMatcher_safe (parseAssert assertPurchasesLit) fieldRemoved (by decide)) h11
  have h13 := runSub_preserves _ cfgNumPersons ht
    (constMatcher_safe (parseAssert assertSalesLit) fieldRemoved (by decide)) h12
  have h14 := runSub_preserves _ cfgNumPersons ht
    (constMatcher_safe (parseCheckpoint ckSaveRestoreLit 3) checkpointRemoved
      (by decide)) h13
  have h15 := runSub_preserves _ cfgNumPersons ht
    (constMatcher_safe (parseCheckpoint ckInvalidPathLit 1) checkpointRemoved
      (by decide)) h14
  have h16 := runSub_preserves _ cfgNumPersons ht
    (constMatcher_safe (parseCheckpoint ckProductionLit 3) checkpointRemoved
      (by decide)) h15
  exact h16

/-- Witness for C10 at a concrete input containing the old field name. -/
theorem fix_tests_removes_config_num_persons_witness :
    occursB cfgNumPersons
      (fixTestsTransform (("let n = config.num_persons;").data)) = false :=
  fix_tests_removes_config_num_persons (("let n = config.num_persons;").data)

/-! ## Part 2: the simulation engine

The engine's own sources are not part of this repository (only the patch
scripts are), so the definitions below are modelled from the
specification's data model (section 3), component contracts (section 4) and
error taxonomy (section 7).  Currency and prices are rationals, which makes
every statistic a total, exactly-computable value. -/

inductive TransactionType
  | Buy
  | Sell
deriving DecidableEq

structure Location where
  x : ℚ
  y : ℚ
deriving DecidableEq

inductive Strategy
  | Conservative
  | Aggressive
deriving DecidableEq

structure Transaction where
  step : Nat
  skill_id : Nat
  kind : TransactionType
  amount : ℚ
  counterparty : Option Nat
deriving DecidableEq

structure Skill where
  id : Nat
  price : ℚ
deriving DecidableEq

structure Person where
  id : Nat
  money : ℚ
  skills : List Skill
  strategy : Strategy
  location : Location
  active : Bool
  transaction_log : List Transaction
deriving DecidableEq

structure EngineConfig where
  entity_count : Nat
  transaction_fee : ℚ
  tax_rate : ℚ
  min_skill_price : ℚ
  max_skill_price : ℚ
deriving DecidableEq

inductive ConfigError
  | invalidFee
  | invalidTax
  | invalidPriceBounds
deriving DecidableEq

inductive EngineError
  | invalidState
deriving DecidableEq

inductive EngineState
  | Populated
  | Stepping
  | Completed
deriving DecidableEq

structure Engine where
  config : EngineConfig
  entities : List Person
  state : EngineState
  current_step : Nat
deriving DecidableEq

/-- Modelled from the spec: skill prices are clamped into
`[min_skill_price, max_skill_price]` whenever mutated by trading. -/
def clampPrice (cfg : EngineConfig) (p : ℚ) : ℚ :=
  max cfg.min_skill_price (min cfg.max_skill_price p)

/-- Modelled from the spec: the balance effect of one recorded transaction,
a debit net of the transaction fee on a Buy and a credit net of the income
tax on a Sell. -/
def balanceDelta (kind : TransactionType) (amount fee tax : ℚ) : ℚ :=
  match kind with
  | TransactionType.Buy => -(amount * (1 + fee))
  | TransactionType.Sell => amount * (1 - tax)

/-- Modelled from the spec (4.1): `record_transaction` appends an immutable
Transaction to the entity's log and applies the balance effect; under the
strict-balance policy it fails silently when the resulting money would go
negative. -/
def Person.record_transaction (p : Person) (step skill_id : Nat)
    (kind : TransactionType) (amount : ℚ) (counterparty : Option Nat)
    (fee tax : ℚ) : Person :=
  if 0 ≤ p.money + balanceDelta kind amount fee tax then
    { p with
      money := p.money + balanceDelta kind amount fee tax,
      transaction_log := p.transaction_log ++
        [{ step := step, skill_id := skill_id, kind := kind, amount := amount,
           counterparty := counterparty }] }
  else p

/-- Modelled from the spec: the (fixed) decision policy of each strategy
variant; Conservative holds, the other mode trades. -/
def decideTrade : Strategy → Bool
  | Strategy.Conservative => false
  | Strategy.Aggressive => true

/-- Modelled from the spec (4.2): execution of one matched trade.  The buyer
buys the seller's first skill at its current price; both sides record the
transaction with consistent counterparty linkage, fee and tax are applied
via `record_transaction`, and the traded skill's price is mutated and
clamped into the configured bounds. -/
def tradePair (cfg : EngineConfig) (st : Nat) (buyer seller : Person) :
    Person × Person :=
  match seller.skills with
  | [] => (buyer, seller)
  | sk :: restSk =>
    if buyer.active && seller.active && decideTrade buyer.strategy then
      (Person.record_transaction buyer st sk.id TransactionType.Buy sk.price
          (some seller.id) cfg.transaction_fee cfg.tax_rate,
       { Person.record_transaction seller st sk.id TransactionType.Sell sk.price
            (some buyer.id) cfg.transaction_fee cfg.tax_rate with
         skills := ⟨sk.id, clampPrice cfg (sk.price * (21 / 20))⟩ :: restSk })
    else (buyer, seller)

/-- Modelled from the spec: the serialized trade-matching phase pairs
adjacent entities (the fixed, documented matching policy) and applies each
matched trade with exclusive access to the pair. -/
def stepPairs (cfg : EngineConfig) (st : Nat) : List Person → List Person
  | [] => []
  | [p] => [p]
  | a :: b :: rest =>
    (tradePair cfg st a b).1 :: (tradePair cfg st a b).2 :: stepPairs cfg st rest

/-- Modelled from the spec: the initial population built by the Engine
constructor; deterministic ids, positive starting money, one owned skill
priced inside the configured bounds, alternating strategies. -/
def buildPopulation (cfg : EngineConfig) : List Person :=
  (List.range cfg.entity_count).map fun i =>
    { id := i, money := 100, skills := [⟨i, clampPrice cfg 50⟩],
      strategy := if i % 2 = 0 then Strategy.Conservative else Strategy.Aggressive,
      location := ⟨(i : ℚ), 0⟩, active := true, transaction_log := [] }

/-- Modelled from the spec (4.2, section 7): engine construction validates
the configuration (fee and tax in `[0,1]`, min price at most max price);
validation failures are fatal ConfigErrors, never silently defaulted. -/
def Engine.new (cfg : EngineConfig) : Except ConfigError Engine :=
  if ¬ (0 ≤ cfg.transaction_fee ∧ cfg.transaction_fee ≤ 1) then
    Except.error ConfigError.invalidFee
  else if ¬ (0 ≤ cfg.tax_rate ∧ cfg.tax_rate ≤ 1) then
    Except.error ConfigError.invalidTax
  else if ¬ (cfg.min_skill_price ≤ cfg.max_skill_price) then
    Except.error ConfigError.invalidPriceBounds
  else
    Except.ok { config := cfg, entities := buildPopulation cfg,
                state := EngineState.Populated, current_step := 0 }

/-- Modelled from the spec (4.2): one simulation step. -/
def Engine.step (e : Engine) : Engine :=
  { e with
    entities := stepPairs e.config e.current_step e.entities,
    current_step := e.current_step + 1,
    state := EngineState.Stepping }

def stepIter : Nat → Engine → Engine
  | 0, e => e
  | n + 1, e => Engine.step (stepIter n e)

structure TradeVolumeStatistics where
  total_trades : Nat
  average_price : ℚ
deriving DecidableEq

structure MoneyStatistics where
  average : ℚ
  gini_coefficient : ℚ
deriving DecidableEq

structure InequalityMetrics where
  gini_coefficient : ℚ
deriving DecidableEq

structure SimulationResult where
  trade_volume_statistics : TradeVolumeStatistics
  money_statistics : MoneyStatistics
  inequality_metrics : InequalityMetrics
deriving DecidableEq

/-- The defined zero-trade sentinel value for `average_price`. -/
def zeroTradeSentinel : ℚ := 0

def sumAbsDiffs (l : List ℚ) : ℚ :=
  (l.map (fun x => (l.map (fun y => |x - y|)).sum)).sum

/-- Modelled from the spec (4.3): the discrete Gini coefficient, computed by
the absolute-value-safe mean-absolute-difference form of the standard
formula, with the mandated degenerate guards: zero or one entity, or an
all-zero total, yield exactly 0.  No clamping is applied to the result. -/
def gini_coefficient (l : List ℚ) : ℚ :=
  if l.length ≤ 1 then 0
  else if l.sum = 0 then 0
  else sumAbsDiffs l / (2 * (l.length : ℚ) * l.sum)

/-- Modelled from the spec: skill-price-weighted wealth, the broader
distribution behind `inequality_metrics`. -/
def wealth (p : Person) : ℚ := p.money + (p.skills.map Skill.price).sum

/-- Modelled from the spec (4.3): the statistics aggregator, a pure function
of the entity collection and the transaction logs. -/
def computeStatistics (entities : List Person) : SimulationResult :=
  { trade_volume_statistics :=
      { total_trades :=
          (((entities.map Person.transaction_log).flatten).filter
            (fun tr => tr.kind == TransactionType.Buy)).length,
        average_price :=
          if ((entities.map Person.transaction_log).flatten).length = 0 then
            zeroTradeSentinel
          else
            (((entities.map Person.transaction_log).flatten).map
              Transaction.amount).sum /
              (((entities.map Person.transaction_log).flatten).length : ℚ) },
    money_statistics :=
      { average :=
          if entities.length = 0 then 0
          else (entities.map Person.money).sum / (entities.length : ℚ),
        gini_coefficient := gini_coefficient (entities.map Person.money) },
    inequality_metrics :=
      { gini_coefficient := gini_coefficient (entities.map wealth) } }

/-- Modelled from the spec (4.2, 4.3): `run` is disallowed on a Completed
engine (InvalidState), otherwise it repeats `step` the requested number of
times, hands the final state to the statistics aggregator and ends in the
Completed state. -/
def Engine.run (e : Engine) (steps : Nat) :
    Except EngineError (SimulationResult × Engine) :=
  match e.state with
  | EngineState.Completed => Except.error EngineError.invalidState
  | _ =>
    Except.ok (computeStatistics (stepIter steps e).entities,
      { stepIter steps e with state := EngineState.Completed })

/-! ### Result persistence, modelled from the spec (4.4) -/

def natChars (n : Nat) : List Char := Nat.toDigits 10 n

def intChars : Int → List Char
  | Int.ofNat n => natChars n
  | Int.negSucc n => '-' :: natChars (n + 1)

def ratChars (q : ℚ) : List Char := intChars q.num ++ ('/' :: natChars q.den)

/-- Modelled from the spec: serialization of a SimulationResult to a stable
byte sequence (all fields are finite rationals, so nothing is rejected). -/
def serialize (r : SimulationResult) : List Char :=
  natChars r.trade_volume_statistics.total_trades ++ (';' ::
    (ratChars r.trade_volume_statistics.average_price ++ (';' ::
      (ratChars r.money_statistics.average ++ (';' ::
        (ratChars r.money_statistics.gini_coefficient ++ (';' ::
          ratChars r.inequality_metrics.gini_coefficient)))))))

/-- Modelled from the spec: the general-purpose compression pass, a
run-length encoding of the serialized bytes. -/
def rleEncode : List Char → List (Char × Nat)
  | [] => []
  | c :: rest =>
    match rleEncode rest with
    | [] => [(c, 1)]
    | (d, k) :: t => if c = d then (d, k + 1) :: t else (c, 1) :: (d, k) :: t

def rleDecode : List (Char × Nat) → List Char
  | [] => []
  | (c, k) :: t => List.replicate k c ++ rleDecode t

/-- A stored result file: either the raw serialized bytes or their
compressed encoding. -/
abbrev FileData := List Char ⊕ List (Char × Nat)

abbrev ResultFS := String → Option FileData

/-- Modelled from the spec (4.4): `save_to_file(path, compress)` writes the
serialized statistics to the path, applying the compression pass first when
`compress` is true. -/
def save_to_file (r : SimulationResult) (path : String) (compress : Bool)
    (fs : ResultFS) : ResultFS :=
  fun q =>
    if q = path then
      some (if compress then Sum.inr (rleEncode (serialize r))
            else Sum.inl (serialize r))
    else fs q

/-- Loading plus decompression: the stored statistics bytes. -/
def decompressFile : Option FileData → Option (List Char)
  | none => none
  | some (Sum.inl raw) => some raw
  | some (Sum.inr comp) => some (rleDecode comp)

/-! ### Facts about the engine model -/

theorem rleDecode_encode (l : List Char) : rleDecode (rleEncode l) = l := by
  induction l with
  | nil => rfl
  | cons c rest ih =>
    cases hrec : rleEncode rest with
    | nil =>
      have hnil : rest = [] := by rw [← ih, hrec]; rfl
      subst hnil
      simp [rleEncode, rleDecode]
    | cons dk t =>
      obtain ⟨d, k⟩ := dk
      by_cases hcd : c = d
      · subst hcd
        rw [show rleEncode (c :: rest) = (c, k + 1) :: t by
          simp [rleEncode, hrec]]
        rw [rleDecode, List.replicate_succ, List.cons_append]
        rw [← ih, hrec, rleDecode]
      · rw [show rleEncode (c :: rest) = (c, 1) :: (d, k) :: t by
          simp [rleEncode, hrec, hcd]]
        rw [rleDecode, ← ih, hrec]
        simp [List.replicate]

theorem clampPrice_mem {cfg : EngineConfig}
    (hmm : cfg.min_skill_price ≤ cfg.max_skill_price) (p : ℚ) :
    cfg.min_skill_price ≤ clampPrice cfg p ∧
      clampPrice cfg p ≤ cfg.max_skill_price := by
  unfold clampPrice
  exact ⟨le_max_left _ _, max_le hmm (min_le_left _ _)⟩

theorem record_transaction_skills (p : Person) (st sid : Nat)
    (k : TransactionType) (amt : ℚ) (cp : Option Nat) (fee tax : ℚ) :
    (Person.record_transaction p st sid k amt cp fee tax).skills = p.skills := by
  unfold Person.record_transaction
  split <;> rfl

theorem record_transaction_money (p : Person) (st sid : Nat)
    (k : TransactionType) (amt : ℚ) (cp : Option Nat) (fee tax : ℚ)
    (hp : 0 ≤ p.money) :
    0 ≤ (Person.record_transaction p st sid k amt cp fee tax).money := by
  unfold Person.record_transaction
  split
  · rename_i hc
    simpa using hc
  · exact hp

theorem tradePair_prices {cfg : EngineConfig} {st : Nat}
    (hmm : cfg.min_skill_price ≤ cfg.max_skill_price) (a b : Person)
    (ha : ∀ sk ∈ a.skills,
      cfg.min_skill_price ≤ sk.price ∧ sk.price ≤ cfg.max_skill_price)
    (hb : ∀ sk ∈ b.skills,
      cfg.min_skill_price ≤ sk.price ∧ sk.price ≤ cfg.max_skill_price) :
    (∀ sk ∈ (tradePair cfg st a b).1.skills,
      cfg.min_skill_price ≤ sk.price ∧ sk.price ≤ cfg.max_skill_price) ∧
    (∀ sk ∈ (tradePair cfg st a b).2.skills,
      cfg.min_skill_price ≤ sk.price ∧ sk.price ≤ cfg.max_skill_price) := by
  unfold tradePair
  split
  · exact ⟨ha, hb⟩
  · rename_i sk restSk heq
    split
    · constructor
      · intro s2 hs2
        rw [record_transaction_skills] at hs2
        exact ha s2 hs2
      · intro s2 hs2
        rcases List.mem_cons.mp hs2 with rfl | hs2
        · exact clampPrice_mem hmm _
        · exact hb s2 (heq ▸ List.mem_cons_of_mem sk hs2)
    · exact ⟨ha, hb⟩

theorem tradePair_money (cfg : EngineConfig) (st : Nat) (a b : Person)
    (ha : 0 ≤ a.money) (hb : 0 ≤ b.money) :
    0 ≤ (tradePair cfg st a b).1.money ∧ 0 ≤ (tradePair cfg st a b).2.money := by
  unfold tradePair
  split
  · exact ⟨ha, hb⟩
  · split
    · refine ⟨record_transaction_money _ _ _ _ _ _ _ _ ha, ?_⟩
      simpa using record_transaction_money _ _ _ _ _ _ _ _ hb
    · exact ⟨ha, hb⟩

theorem stepPairs_forall (cfg : EngineConfig) (st : Nat) (P : Person → Prop)
    (hP : ∀ a b, P a → P b →
      P (tradePair cfg st a b).1 ∧ P (tradePair cfg st a b).2) :
    ∀ ps, (∀ p ∈ ps, P p) → ∀ p ∈ stepPairs cfg st ps, P p := by
  have key : ∀ n ps, ps.length ≤ n → (∀ p ∈ ps, P p) →
      ∀ p ∈ stepPairs cfg st ps, P p := by
    intro n
    induction n with
    | zero =>
      intro ps hlen h
      have hnil : ps = [] := List.length_eq_zero.mp (Nat.le_zero.mp hlen)
      subst hnil
      simp [stepPairs]
    | succ n ih =>
      intro ps hlen h
      cases ps with
      | nil => simp [stepPairs]
      | cons a tail =>
        cases tail with
        | nil => simpa [stepPairs] using h
        | cons b rest =>
          intro p hp
          simp only [stepPairs, List.mem_cons] at hp
          have hab := hP a b (h a (by simp)) (h b (by simp))
          rcases hp with rfl | rfl | hp
          · exact hab.1
          · exact hab.2
          · refine ih rest ?_ (fun q hq => h q (by simp [hq])) p hp
            simp only [List.length_cons] at hlen
            omega
  exact fun ps => key ps.length ps le_rfl

def pricesInBounds (cfg : EngineConfig) (ps : List Person) : Prop :=
  ∀ p ∈ ps, ∀ sk ∈ p.skills,
    cfg.min_skill_price ≤ sk.price ∧ sk.price ≤ cfg.max_skill_price

def moneyNonneg (ps : List Person) : Prop := ∀ p ∈ ps, 0 ≤ p.money

theorem stepIter_config (e : Engine) (n : Nat) :
    (stepIter n e).config = e.config := by
  induction n with
  | zero => rfl
  | succ n ih => simpa [stepIter, Engine.step] using ih

theorem stepIter_prices (e : Engine)
    (hmm : e.config.min_skill_price ≤ e.config.max_skill_price)
    (h : pricesInBounds e.config e.entities) (n : Nat) :
    pricesInBounds e.config (stepIter n e).entities := by
  induction n with
  | zero => exact h
  | succ n ih =>
    show pricesInBounds e.config (Engine.step (stepIter n e)).entities
    unfold Engine.step
    intro p hp
    simp only [] at hp
    rw [stepIter_config e n] at hp
    exact stepPairs_forall e.config (stepIter n e).current_step
      (fun q => ∀ sk ∈ q.skills,
        e.config.min_skill_price ≤ sk.price ∧ sk.price ≤ e.config.max_skill_price)
      (fun a b hqa hqb => tradePair_prices hmm a b hqa hqb)
      (stepIter n e).entities ih p hp

theorem stepIter_money (e : Engine) (h : moneyNonneg e.entities) (n : Nat) :
    moneyNonneg (stepIter n e).entities := by
  induction n with
  | zero => exact h
  | succ n ih =>
    show moneyNonneg (Engine.step (stepIter n e)).entities
    unfold Engine.step
    intro p hp
    simp only [] at hp
    exact stepPairs_forall (stepIter n e).config (stepIter n e).current_step
      (fun q => 0 ≤ q.money)
      (fun a b hqa hqb => tradePair_money _ _ a b hqa hqb)
      (stepIter n e).entities ih p hp

theorem engine_new_entities {cfg : EngineConfig} {e : Engine}
    (h : Engine.new cfg = Except.ok e) :
    e = { config := cfg, entities := buildPopulation cfg,
          state := EngineState.Populated, current_step := 0 } := by
  unfold Engine.new at h
  split at h
  · exact Except.noConfusion h
  · split at h
    · exact Except.noConfusion h
    · split at h
      · exact Except.noConfusion h
      · simp only [Except.ok.injEq] at h
        exact h.symm

theorem engine_new_valid {cfg : EngineConfig} {e : Engine}
    (h : Engine.new cfg = Except.ok e) :
    (0 ≤ cfg.transaction_fee ∧ cfg.transaction_fee ≤ 1) ∧
    (0 ≤ cfg.tax_rate ∧ cfg.tax_rate ≤ 1) ∧
    cfg.min_skill_price ≤ cfg.max_skill_price := by
  unfold Engine.new at h
  split at h
  · exact Except.noConfusion h
  · split at h
    · exact Except.noConfusion h
    · split at h
      · exact Except.noConfusion h
      · rename_i h1 h2 h3
        exact ⟨not_not.mp h1, not_not.mp h2, not_not.mp h3⟩

theorem buildPopulation_log (cfg : EngineConfig) :
    ∀ p ∈ buildPopulation cfg, p.transaction_log = [] := by
  intro p hp
  obtain ⟨i, _, rfl⟩ := List.mem_map.mp hp
  rfl

theorem buildPopulation_money (cfg : EngineConfig) :
    moneyNonneg (buildPopulation cfg) := by
  intro p hp
  obtain ⟨i, _, rfl⟩ := List.mem_map.mp hp
  norm_num

theorem buildPopulation_prices (cfg : EngineConfig)
    (hmm : cfg.min_skill_price ≤ cfg.max_skill_price) :
    pricesInBounds cfg (buildPopulation cfg) := by
  intro p hp
  obtain ⟨i, _, rfl⟩ := List.mem_map.mp hp
  intro sk hsk
  rcases List.mem_singleton.mp hsk with rfl
  exact clampPrice_mem hmm _

/-! ### Facts about the Gini coefficient -/

theorem sum_map_linear (a b : ℚ) (l : List ℚ) :
    (l.map fun x => a * x + b).sum = a * l.sum + (l.length : ℚ) * b := by
  induction l with
  | nil => simp
  | cons x xs ih =>
    simp only [List.map_cons, List.sum_cons, List.length_cons, ih]
    push_cast
    ring

theorem sumAbsDiffs_nonneg (l : List ℚ) : 0 ≤ sumAbsDiffs l := by
  apply List.sum_nonneg
  intro x hx
  obtain ⟨y, _, rfl⟩ := List.mem_map.mp hx
  apply List.sum_nonneg
  intro z hz
  obtain ⟨w, _, rfl⟩ := List.mem_map.mp hz
  exact abs_nonneg _

theorem sumAbsDiffs_le (l : List ℚ) (h : ∀ x ∈ l, 0 ≤ x) :
    sumAbsDiffs l ≤ 2 * (l.length : ℚ) * l.sum := by
  unfold sumAbsDiffs
  have step1 : ∀ x ∈ l,
      (l.map (fun y => |x - y|)).sum ≤ (l.length : ℚ) * x + l.sum := by
    intro x hx
    have hle : (l.map (fun y => |x - y|)).sum ≤ (l.map (fun y => x + y)).sum := by
      apply List.sum_le_sum
      intro y hy
      calc |x - y| ≤ |x| + |y| := abs_sub x y
        _ = x + y := by rw [abs_of_nonneg (h x hx), abs_of_nonneg (h y hy)]
    refine hle.trans (le_of_eq ?_)
    have hmap : (l.map fun y => x + y) = l.map fun y => 1 * y + x := by
      apply List.map_congr_left
      intro a _
      ring
    rw [hmap, sum_map_linear]
    ring
  calc (l.map (fun x => (l.map (fun y => |x - y|)).sum)).sum
      ≤ (l.map (fun x => (l.length : ℚ) * x + l.sum)).sum := List.sum_le_sum step1
    _ = (l.length : ℚ) * l.sum + (l.length : ℚ) * l.sum := by rw [sum_map_linear]
    _ = 2 * (l.length : ℚ) * l.sum := by ring

theorem gini_nonneg_le_one (l : List ℚ) (h : ∀ x ∈ l, 0 ≤ x) :
    0 ≤ gini_coefficient l ∧ gini_coefficient l ≤ 1 := by
  unfold gini_coefficient
  split
  · norm_num
  · split
    · norm_num
    · rename_i h1 h2
      have hn : 0 < l.length := by omega
      have hnq : 0 < (l.length : ℚ) := by exact_mod_cast hn
      have hsum0 : 0 ≤ l.sum := List.sum_nonneg h
      have hsum : 0 < l.sum := lt_of_le_of_ne hsum0 (Ne.symm h2)
      have hd : 0 < 2 * (l.length : ℚ) * l.sum :=
        mul_pos (mul_pos (by norm_num) hnq) hsum
      constructor
      · exact div_nonneg (sumAbsDiffs_nonneg l) hd.le
      · rw [div_le_one hd]
        exact sumAbsDiffs_le l h

theorem gini_all_equal (l : List ℚ) (x : ℚ) (h : ∀ y ∈ l, y = x) :
    gini_coefficient l = 0 := by
  unfold gini_coefficient
  split
  · rfl
  · split
    · rfl
    · have hzero : sumAbsDiffs l = 0 := by
        unfold sumAbsDiffs
        apply List.sum_eq_zero
        intro a ha
        obtain ⟨y, hy, rfl⟩ := List.mem_map.mp ha
        apply List.sum_eq_zero
        intro b hb
        obtain ⟨z, hz, rfl⟩ := List.mem_map.mp hb
        rw [h y hy, h z hz, sub_self, abs_zero]
      rw [hzero, zero_div]

/-! ### The claims about the engine -/

/-- A concrete valid configuration, used by the witnesses. -/
def cfg0 : EngineConfig :=
  { entity_count := 3, transaction_fee := 1 / 100, tax_rate := 1 / 20,
    min_skill_price := 1, max_skill_price := 100 }

/-- The engine `Engine.new cfg0` constructs. -/
def e0 : Engine :=
  { config := cfg0, entities := buildPopulation cfg0,
    state := EngineState.Populated, current_step := 0 }

/-- An engine in the Completed state, used by the C6 witness. -/
def eDone : Engine :=
  { config := cfg0, entities := [], state := EngineState.Completed,
    current_step := 7 }

theorem new_cfg0 : Engine.new cfg0 = Except.ok e0 := by
  unfold Engine.new cfg0 e0
  norm_num
  exact ⟨rfl, rfl⟩

/-- Claim C4: saving with `compress = true` and then loading and
decompressing yields statistics bytes identical to saving with
`compress = false` and loading. -/
theorem compressed_save_round_trip (r : SimulationResult) (path : String)
    (fs : ResultFS) :
    decompressFile (save_to_file r path true fs path) =
      decompressFile (save_to_file r path false fs path) := by
  simp [save_to_file, decompressFile, rleDecode_encode]

/-- Claim C6: calling `run` on a Completed engine fails with the
InvalidState error; it neither re-runs nor silently succeeds. -/
theorem run_on_completed_fails (e : Engine) (n : Nat)
    (h : e.state = EngineState.Completed) :
    Engine.run e n = Except.error EngineError.invalidState := by
  unfold Engine.run
  rw [h]

/-- Witness for C6 at a concrete Completed engine. -/
theorem run_on_completed_fails_witness :
    Engine.run eDone 5 = Except.error EngineError.invalidState :=
  run_on_completed_fails eDone 5 rfl

/-- Claim C7: engine construction validates the configuration.  An
out-of-range fee or tax, or min price above max price, makes construction
fail immediately with a ConfigError; on success the engine carries exactly
the given configuration, never silently substituted defaults. -/
theorem construction_validates (cfg : EngineConfig) :
    ((cfg.transaction_fee < 0 ∨ 1 < cfg.transaction_fee ∨ cfg.tax_rate < 0 ∨
        1 < cfg.tax_rate ∨ cfg.max_skill_price < cfg.min_skill_price) →
      ∃ err, Engine.new cfg = Except.error err) ∧
    (∀ e, Engine.new cfg = Except.ok e → e.config = cfg) := by
  constructor
  · intro hbad
    unfold Engine.new
    split
    · exact ⟨_, rfl⟩
    · split
      · exact ⟨_, rfl⟩
      · split
        · exact ⟨_, rfl⟩
        · rename_i h1 h2 h3
          rw [not_not] at h1 h2 h3
          exfalso
          rcases hbad with hx | hx | hx | hx | hx
          · exact absurd hx (not_lt.mpr h1.1)
          · exact absurd hx (not_lt.mpr h1.2)
          · exact absurd hx (not_lt.mpr h2.1)
          · exact absurd hx (not_lt.mpr h2.2)
          · exact absurd hx (not_lt.mpr h3)
  · intro e he
    obtain rfl := engine_new_entities he
    rfl

/-- Claim C3: running zero steps on a freshly constructed engine succeeds
and yields a result with `total_trades = 0` and `average_price` equal to
the defined zero-trade sentinel; the zero-trade case is total, with no
division by zero. -/
theorem run_zero_steps (cfg : EngineConfig) (e : Engine)
    (h : Engine.new cfg = Except.ok e) :
    ∃ r e₂, Engine.run e 0 = Except.ok (r, e₂) ∧
      r.trade_volume_statistics.total_trades = 0 ∧
      r.trade_volume_statistics.average_price = zeroTradeSentinel := by
  obtain rfl := engine_new_entities h
  have hlogs : ((buildPopulation cfg).map Person.transaction_log).flatten = [] := by
    rw [List.flatten_eq_nil_iff]
    intro l hl
    obtain ⟨p, hp, rfl⟩ := List.mem_map.mp hl
    exact buildPopulation_log cfg p hp
  refine ⟨_, _, rfl, ?_, ?_⟩
  · simp [computeStatistics, stepIter, hlogs]
  · simp [computeStatistics, stepIter, hlogs]

/-- Witness for C3 at the concrete configuration `cfg0`. -/
theorem run_zero_steps_witness :
    ∃ r e₂, Engine.run e0 0 = Except.ok (r, e₂) ∧
      r.trade_volume_statistics.total_trades = 0 ∧
      r.trade_volume_statistics.average_price = zeroTradeSentinel :=
  run_zero_steps cfg0 e0 new_cfg0

/-- Claim C5: at every observation point of a run every skill price lies in
the configured bounds: the clamp used by trading lands in
`[min_skill_price, max_skill_price]`, the invariant holds at construction,
and it is preserved by every number of engine steps. -/
theorem skill_prices_within_bounds (cfg : EngineConfig) (e : Engine) (n : Nat)
    (p : ℚ) (h : Engine.new cfg = Except.ok e) :
    (cfg.min_skill_price ≤ clampPrice cfg p ∧
      clampPrice cfg p ≤ cfg.max_skill_price) ∧
    pricesInBounds cfg (stepIter n e).entities := by
  have hv := engine_new_valid h
  obtain rfl := engine_new_entities h
  refine ⟨clampPrice_mem hv.2.2 p, ?_⟩
  exact stepIter_prices _ hv.2.2 (buildPopulation_prices cfg hv.2.2) n

/-- Witness for C5 at the concrete configuration `cfg0`. -/
theorem skill_prices_within_bounds_witness :
    (cfg0.min_skill_price ≤ clampPrice cfg0 7 ∧
      clampPrice cfg0 7 ≤ cfg0.max_skill_price) ∧
    pricesInBounds cfg0 (stepIter 3 e0).entities :=
  skill_prices_within_bounds cfg0 e0 3 7 new_cfg0

/-- Claim C1: for every completed run the money Gini coefficient lies in
`[0, 1]` (as a total rational value it can never be NaN), the degenerate
inputs — zero entities, one entity, or all-equal balances — give exactly 0,
and the bound is proved of the unclamped formula, not obtained by clamping. -/
theorem money_gini_in_range (cfg : EngineConfig) (e : Engine) (n : Nat)
    (r : SimulationResult) (e₂ : Engine) (h : Engine.new cfg = Except.ok e)
    (hrun : Engine.run e n = Except.ok (r, e₂)) :
    (0 ≤ r.money_statistics.gini_coefficient ∧
      r.money_statistics.gini_coefficient ≤ 1) ∧
    gini_coefficient [] = 0 ∧ (∀ x : ℚ, gini_coefficient [x] = 0) ∧
    (∀ l (x : ℚ), (∀ y ∈ l, y = x) → gini_coefficient l = 0) := by
  obtain rfl := engine_new_entities h
  have hpair := Except.ok.inj
    (show Except.ok
        (computeStatistics (stepIter n
          { config := cfg, entities := buildPopulation cfg,
            state := EngineState.Populated, current_step := 0 }).entities,
        ({ stepIter n
          { config := cfg, entities := buildPopulation cfg,
            state := EngineState.Populated, current_step := 0 } with
          state := EngineState.Completed } : Engine)) =
      Except.ok (r, e₂) from hrun)
  have hr := congrArg Prod.fst hpair
  simp only [] at hr
  refine ⟨?_, by simp [gini_coefficient], fun x => by simp [gini_coefficient],
    gini_all_equal⟩
  rw [← hr]
  have hnn : moneyNonneg (stepIter n
      { config := cfg, entities := buildPopulation cfg,
        state := EngineState.Populated, current_step := 0 }).entities :=
    stepIter_money _ (buildPopulation_money cfg) n
  have hbal : ∀ x ∈ (stepIter n
      { config := cfg, entities := buildPopulation cfg,
        state := EngineState.Populated, current_step := 0 }).entities.map
        Person.money, 0 ≤ x := by
    intro x hx
    obtain ⟨q, hq, rfl⟩ := List.mem_map.mp hx
    exact hnn q hq
  exact gini_nonneg_le_one _ hbal

/-- Witness for C1 at the concrete configuration `cfg0` and a two-step run. -/
theorem money_gini_in_range_witness :
    (0 ≤ (computeStatistics (stepIter 2 e0).entities).money_statistics.gini_coefficient ∧
      (computeStatistics (stepIter 2 e0).entities).money_statistics.gini_coefficient ≤ 1) ∧
    gini_coefficient [] = 0 ∧ (∀ x : ℚ, gini_coefficient [x] = 0) ∧
    (∀ l (x : ℚ), (∀ y ∈ l, y = x) → gini_coefficient l = 0) :=
  money_gini_in_range cfg0 e0 2 (computeStatistics (stepIter 2 e0).entities)
    { stepIter 2 e0 with state := EngineState.Completed } new_cfg0 rfl

end CommunitySim
